import Mathlib

/-!
# switch-ssh-go: result filter, timed readers and session operations

A shallow embedding of `ssh.go` and `ssh_session.go`.

* A Go `string` is a finite sequence of bytes (`GoString`).
* The functions of Go's `strings` package used by the code are embedded in the
  namespace `strings`.  `strings.TrimSpace` and `strings.ToLower` decode UTF-8
  and consult the Unicode tables; they are parameters of the functions that
  call them, and `asciiTrimSpace` / `asciiToLower` are their restrictions to
  ASCII text, used to evaluate examples.
* The read queue `out` is the sequence of outcomes of the successive
  non-blocking receives of a `select` with a `default` branch: `some chunk`
  or `none` (queue empty right now).
* The write queue `in` is unbuffered and the writer goroutine is its only
  receiver: a send completes while that goroutine still receives, panics on
  the closed channel, and otherwise never completes.
* A method that does not return (a send that never completes, or a read loop
  still running when the outcomes given are used up) evaluates to `none`.
-/

namespace SwitchSSH

/-- A Go string: a sequence of bytes. -/
abbrev GoString := List UInt8

/-- The UTF-8 bytes of a string literal. -/
def lit (s : String) : GoString := s.toUTF8.data.toList

namespace strings

/-- Go `strings.Index(s, substr)`: the index of the first occurrence of
`substr` in `s`, or `-1`. -/
def Index : GoString → GoString → Int
  | [], substr => if substr = [] then 0 else -1
  | c :: cs, substr =>
    if substr.isPrefixOf (c :: cs) then 0
    else
      let i := Index cs substr
      if i < 0 then -1 else i + 1

/-- Go `strings.Contains(s, substr)`, which is `Index(s, substr) >= 0`. -/
def Contains (s substr : GoString) : Bool := decide (0 ≤ Index s substr)

/-- The scan of `strings.Replace(s, old, "", -1)`: `skip` bytes of a matched
occurrence are still to be passed over. -/
def replaceScan (old : GoString) : Nat → GoString → GoString
  | _, [] => []
  | skip + 1, _ :: cs => replaceScan old skip cs
  | 0, c :: cs =>
    if old.isPrefixOf (c :: cs) then replaceScan old (old.length - 1) cs
    else c :: replaceScan old 0 cs

/-- Go `strings.Replace(s, old, "", -1)`: every non-overlapping occurrence of
`old`, found from left to right, is removed; with `old` empty it is `s`. -/
def ReplaceByEmpty (s old : GoString) : GoString :=
  if old = [] then s else replaceScan old 0 s

/-- The scan of `strings.Split(s, sep)` for a non-empty `sep`; the head of the
returned list is the piece being read. -/
def splitScan (sep : GoString) : Nat → GoString → List GoString
  | _, [] => [[]]
  | skip + 1, _ :: cs => splitScan sep skip cs
  | 0, c :: cs =>
    if sep.isPrefixOf (c :: cs) then [] :: splitScan sep (sep.length - 1) cs
    else
      match splitScan sep 0 cs with
      | [] => [[c]]
      | piece :: pieces => (c :: piece) :: pieces

/-- Go `strings.Split(s, sep)` for a non-empty separator `sep`. -/
def Split (s sep : GoString) : List GoString := splitScan sep 0 s

end strings

/-- The ASCII white space of Go's `strings.TrimSpace`:
tab, line feed, vertical tab, form feed, carriage return, space. -/
def asciiSpace (c : UInt8) : Bool :=
  c == 9 || c == 10 || c == 11 || c == 12 || c == 13 || c == 32

/-- Go `strings.TrimSpace` on ASCII text. -/
def asciiTrimSpace (s : GoString) : GoString :=
  ((s.dropWhile asciiSpace).reverse.dropWhile asciiSpace).reverse

/-- Go `strings.ToLower` on ASCII text. -/
def asciiToLower (s : GoString) : GoString :=
  s.map (fun c => if 65 ≤ c.toNat ∧ c.toNat ≤ 90 then UInt8.ofNat (c.toNat + 32) else c)

/-! ## `ssh.go` -/

/-- Constant `HUAWEI`. -/
def HUAWEI : GoString := lit "huawei"
/-- Constant `H3C`. -/
def H3C : GoString := lit "h3c"
/-- Constant `CISCO`. -/
def CISCO : GoString := lit "cisco"

/-- The Go literal `" \b"`: a space and a backspace. -/
def spaceBackspace : GoString := [32, 8]

/-- The Go literal of `ssh.go` line 105: a space, ESC, and `[1D`. -/
def spaceCursorLeft : GoString := [32, 27, 91, 49, 68]

/-- The Go literal `"\n"`. -/
def newline : GoString := [10]

/-- The Go literal `"\r"`. -/
def carriageReturn : GoString := [13]

/-- The two replacements at the head of the loop body of `filterResult`
(`ssh.go` lines 101-107). -/
def cleanItem (resultItem : GoString) : GoString :=
  let resultItem := strings.ReplaceByEmpty resultItem spaceBackspace
  if strings.Contains resultItem spaceCursorLeft then
    strings.ReplaceByEmpty resultItem spaceCursorLeft
  else resultItem

/-- The variables of `filterResult` that its loop updates. -/
structure FilterState where
  filteredResult : GoString
  findCmd : Bool
  promptStr : GoString
  deriving DecidableEq

/-- The prompt recorded at a line containing `firstCmd`
(`ssh.go` lines 117-119). -/
def recordPrompt (TrimSpace : GoString → GoString) (resultItem firstCmd : GoString) :
    GoString :=
  let promptStr := resultItem.take (strings.Index resultItem firstCmd).toNat
  let promptStr := strings.ReplaceByEmpty promptStr carriageReturn
  TrimSpace promptStr

/-- One iteration of the loop of `filterResult` (`ssh.go` lines 99-127). -/
def filterStep (TrimSpace : GoString → GoString) (firstCmd : GoString)
    (st : FilterState) (resultItem : GoString) : FilterState :=
  let resultItem := cleanItem resultItem
  if st.findCmd &&
      (st.promptStr == [] || strings.ReplaceByEmpty resultItem st.promptStr != []) then
    { st with filteredResult := st.filteredResult ++ resultItem ++ newline }
  else if strings.Contains resultItem firstCmd then
    { filteredResult := st.filteredResult ++ resultItem ++ newline
      findCmd := true
      promptStr := recordPrompt TrimSpace resultItem firstCmd }
  else st

/-- Function `filterResult` of `ssh.go`. -/
def filterResult (TrimSpace : GoString → GoString) (result firstCmd : GoString) :
    GoString :=
  let st := (strings.Split result newline).foldl (filterStep TrimSpace firstCmd)
    { filteredResult := [], findCmd := false, promptStr := [] }
  if !st.findCmd then result else st.filteredResult

/-! ## `ssh_session.go` -/

/-- A finite `float32` value, written `mant * 2 ^ exp`. -/
structure Float32 where
  mant : Int
  exp : Int
  deriving DecidableEq

/-- The rational number a `Float32` stands for. -/
def Float32.toRat (x : Float32) : ℚ := (x.mant : ℚ) * (2 : ℚ) ^ x.exp

/-- Two's-complement wrap-around of `int64` arithmetic. -/
def wrapInt64 (n : Int) : Int := (n + 2 ^ 63) % 2 ^ 64 - 2 ^ 63

/-- Go conversion `time.Duration(x)` of a `float32` to the `int64` type
`time.Duration`: the fraction is discarded (truncation towards zero). -/
def Float32.toDuration (x : Float32) : Int :=
  wrapInt64 (if 0 ≤ x.exp then x.mant * 2 ^ x.exp.toNat
    else Int.tdiv x.mant (2 ^ (-x.exp).toNat))

/-- Constant `time.Second`, in nanoseconds. -/
def Second : Int := 1000000000

/-- The argument of `time.Sleep` in both read loops:
`time.Duration(maxIntervalTime) * time.Second`, in nanoseconds. -/
def sleepArgument (maxIntervalTime : Float32) : Int :=
  wrapInt64 (maxIntervalTime.toDuration * Second)

/-- The outcome of one non-blocking receive on `out`: a chunk, or `none` when
the `default` branch of the `select` is taken. -/
abbrev Poll := Option GoString

/-- A line written by `LogError`: the format and its argument. -/
structure LogEntry where
  format : String
  arg : String
  deriving DecidableEq

/-- Type `SSHSession`, with the channels and the transport seen through what
the methods do to them.
* `sessionClosed`: `session.Close()` has been called on the transport;
* `inClosed`, `outClosed`: the channel has been closed;
* `sent`: the strings sent on `in`, oldest first;
* `writerAccepts`: the number of strings the writer goroutine of `muxShell`
  will still receive from the unbuffered channel `in`: it leaves its loop at
  the first write that fails, without closing `in`, and a send on `in` then
  never completes;
* `out`: the outcomes of the receives still to come on `out`;
* `slept`: the arguments of the calls of `time.Sleep`, in nanoseconds;
* `log`: the lines written by `LogError`. -/
structure SSHSession where
  sessionClosed : Bool
  inClosed : Bool
  outClosed : Bool
  sent : List GoString
  writerAccepts : Nat
  out : List Poll
  brand : GoString
  slept : List Int
  log : List LogEntry
  deriving DecidableEq

/-- A call in progress: the session, and the value of a panic under way. -/
abbrev Run := SSHSession × Option String

/-- Function `LogError`. -/
def LogError (s : SSHSession) (format arg : String) : SSHSession :=
  { s with log := s.log ++ [{ format := format, arg := arg }] }

/-- The deferred `func() { if err := recover(); err != nil { LogError(format, err) } }()`:
a panic under way is logged and stopped. -/
def deferRecover (format : String) : Run → Run
  | (s, some err) => (LogError s format err, none)
  | (s, none) => (s, none)

/-- How a sequence of sends on `in` ends: all of them completed, one of them
panicked, or one of them blocks forever for want of a receiver. -/
inductive Sending where
  | completed (s : SSHSession)
  | panicked (s : SSHSession) (err : String)
  | blocked (s : SSHSession)
  deriving DecidableEq

/-- Method `WriteChannel`: each command is sent on `in`.  A send on a closed
channel panics; a send on the open channel completes when the writer
goroutine receives it, and blocks forever once that goroutine has left its
loop. -/
def WriteChannel (s : SSHSession) : List GoString → Sending
  | [] => Sending.completed s
  | cmd :: cmds =>
    if s.inClosed then Sending.panicked s "send on closed channel"
    else
      match s.writerAccepts with
      | 0 => Sending.blocked s
      | accepts + 1 =>
        WriteChannel { s with sent := s.sent ++ [cmd], writerAccepts := accepts } cmds

/-- The variables of the read loops. -/
structure ReadState where
  result : GoString
  isDelay : Bool
  slept : List Int
  deriving DecidableEq

/-- The loop of `ReadChannelExpect` (`ssh_session.go` lines 286-305) over the
outcomes of the receives; `none` when the outcomes given are used up before
the loop is left.  On return: `result` and the outcomes not consumed. -/
def expectLoop (maxIntervalTime : Float32) (expects : List GoString) :
    List Poll → ReadState → Option (ReadState × List Poll)
  | [], _ => none
  | some sout :: polls, st =>
    let st := { st with isDelay := false, result := st.result ++ sout }
    if expects.any (fun expect => strings.Contains sout expect) then some (st, polls)
    else expectLoop maxIntervalTime expects polls st
  | none :: polls, st =>
    if st.isDelay then some (st, polls)
    else expectLoop maxIntervalTime expects polls
      { st with slept := st.slept ++ [sleepArgument maxIntervalTime], isDelay := true }

/-- The loop of `ReadChannelTiming` (`ssh_session.go` lines 320-334). -/
def timingLoop (maxIntervalTime : Float32) :
    List Poll → ReadState → Option (ReadState × List Poll)
  | [], _ => none
  | some sout :: polls, st =>
    timingLoop maxIntervalTime polls { st with isDelay := false, result := st.result ++ sout }
  | none :: polls, st =>
    if st.isDelay then some (st, polls)
    else timingLoop maxIntervalTime polls
      { st with slept := st.slept ++ [sleepArgument maxIntervalTime], isDelay := true }

/-- Method `ReadChannelExpect`; `none` when `s.out` is used up before the
method returns. -/
def ReadChannelExpect (maxIntervalTime : Float32) (expects : List GoString)
    (s : SSHSession) : Option (GoString × SSHSession) :=
  match expectLoop maxIntervalTime expects s.out
      { result := [], isDelay := false, slept := s.slept } with
  | none => none
  | some (st, polls) => some (st.result, { s with out := polls, slept := st.slept })

/-- Method `ReadChannelTiming`; `none` when `s.out` is used up before the
method returns. -/
def ReadChannelTiming (maxIntervalTime : Float32) (s : SSHSession) :
    Option (GoString × SSHSession) :=
  match timingLoop maxIntervalTime s.out
      { result := [], isDelay := false, slept := s.slept } with
  | none => none
  | some (st, polls) => some (st.result, { s with out := polls, slept := st.slept })

/-- The expected strings of `CheckSelf` and `start`: `"#"`, `">"`, `"]"`. -/
def promptMarks : List GoString := [lit "#", lit ">", lit "]"]

/-- Method `CheckSelf`; `none` when the call does not return: its send blocks
forever, or `s.out` is used up before the read loop is left.
A recovered panic makes it return the zero value `false`. -/
def CheckSelf (s : SSHSession) : Option (Bool × SSHSession) :=
  match WriteChannel s [newline] with
  | Sending.panicked s err =>
    some (false, (deferRecover "SSHSession CheckSelf err:%s" (s, some err)).1)
  | Sending.blocked _ => none
  | Sending.completed s =>
    match ReadChannelExpect ⟨2, 0⟩ promptMarks s with
    | none => none
    | some (result, s) =>
      if strings.Contains result (lit "#") ||
          strings.Contains result (lit ">") ||
          strings.Contains result (lit "]") then
        some (true, s)
      else some (false, s)

/-- The commands written by `GetSSHBrand`. -/
def detectionCommands : List GoString := [lit "dis version", lit "show version", lit "     "]

/-- Method `GetSSHBrand`; `none` when the call does not return: one of its
sends blocks forever, or `s.out` is used up before the read loop is left.
A recovered panic makes it return the zero value `""`. -/
def GetSSHBrand (ToLower : GoString → GoString) (s : SSHSession) :
    Option (GoString × SSHSession) :=
  if s.brand ≠ [] then some (s.brand, s)
  else
    match WriteChannel s detectionCommands with
    | Sending.panicked s err =>
      some ([], (deferRecover "SSHSession GetSSHBrand err:%s" (s, some err)).1)
    | Sending.blocked _ => none
    | Sending.completed s =>
      match ReadChannelTiming ⟨1, 0⟩ s with
      | none => none
      | some (result, s) =>
        let result := ToLower result
        let s :=
          if strings.Contains result HUAWEI then { s with brand := HUAWEI }
          else if strings.Contains result H3C then { s with brand := H3C }
          else if strings.Contains result CISCO then { s with brand := CISCO }
          else s
        some (s.brand, s)

/-- The built-in `close(ch)` on a channel whose closed flag is given:
closing a closed channel panics. -/
def closeChannel (closed : Bool) : Bool × Option String :=
  if closed then (true, some "close of closed channel") else (true, none)

/-- The body of `Close` (`ssh_session.go` lines 256-260) before the deferred
function runs; `closeErr` is what `this.session.Close()` returns. -/
def closeBody (closeErr : Option String) (s : SSHSession) : Run :=
  let s := { s with sessionClosed := true }
  let s := match closeErr with
    | some err => LogError s "Close session err:%s" err
    | none => s
  match closeChannel s.inClosed with
  | (c, some err) => ({ s with inClosed := c }, some err)
  | (c, none) =>
    let s := { s with inClosed := c }
    match closeChannel s.outClosed with
    | (c, some err) => ({ s with outClosed := c }, some err)
    | (c, none) => ({ s with outClosed := c }, none)

/-- Method `Close`: the session after the call, and the panic that leaves the
call, if any. -/
def Close (closeErr : Option String) (s : SSHSession) : Run :=
  deferRecover "SSHSession Close err:%s" (closeBody closeErr s)

/-! ## Vocabulary of the statements -/

/-- The chunks among the outcomes, in arrival order. -/
def chunks (polls : List Poll) : List GoString := polls.filterMap id

/-- Two consecutive receives found the queue empty. -/
def hasIdlePair : List Poll → Bool
  | none :: none :: _ => true
  | _ :: polls => hasIdlePair polls
  | [] => false

/-- The chunk contains one of the expected strings. -/
def matchesAny (expects : List GoString) (chunk : GoString) : Bool :=
  expects.any (fun expect => strings.Contains chunk expect)

/-- A session as `NewSSHSession` leaves it, whose writer goroutine will
receive `writerAccepts` strings, with the receives `out` to come. -/
def freshSession (writerAccepts : Nat) (out : List Poll) : SSHSession :=
  { sessionClosed := false, inClosed := false, outClosed := false, sent := [],
    writerAccepts := writerAccepts, out := out, brand := [], slept := [], log := [] }

/-- The receive that precedes the ones to come, as far as the idle flag
remembers it: an empty one when `isDelay` is set. -/
def idleStart (st : ReadState) : List Poll := if st.isDelay then [none] else []

/-- The concatenation of the strings, in order. -/
def concatAll : List GoString → GoString
  | [] => []
  | piece :: pieces => piece ++ concatAll pieces

/-- The lines of the filtered result kept after a line containing `firstCmd`,
as the amended statement of the filter describes them: a cleaned line is left
out exactly when the recorded prompt is not empty, removing every occurrence of
that prompt from the line leaves nothing, and the line does not contain
`firstCmd`; a kept line that was wiped out by the prompt but contains
`firstCmd` records a new prompt. -/
def keptAfter (TrimSpace : GoString → GoString) (firstCmd : GoString) :
    GoString → List GoString → List GoString
  | _, [] => []
  | promptStr, line :: lines =>
    if promptStr = [] ∨ strings.ReplaceByEmpty line promptStr ≠ [] then
      line :: keptAfter TrimSpace firstCmd promptStr lines
    else if strings.Contains line firstCmd = true then
      line :: keptAfter TrimSpace firstCmd (recordPrompt TrimSpace line firstCmd) lines
    else keptAfter TrimSpace firstCmd promptStr lines

/-- Each line followed by a line feed, all concatenated. -/
def terminated (lines : List GoString) : GoString :=
  concatAll (lines.map (fun line => line ++ newline))

/-- The byte `y` directly follows the byte `x` somewhere in the string. -/
def adjacent (x y : UInt8) : GoString → Bool
  | c :: d :: rest => (c == x && d == y) || adjacent x y (d :: rest)
  | _ => false

/-! ## Lemmas on the `strings` functions -/

theorem strings.Contains_nil (substr : GoString) :
    strings.Contains [] substr = decide (substr = []) := by
  unfold strings.Contains strings.Index
  by_cases h : substr = [] <;> simp [h]

theorem strings.Contains_cons (c : UInt8) (cs substr : GoString) :
    strings.Contains (c :: cs) substr =
      (substr.isPrefixOf (c :: cs) || strings.Contains cs substr) := by
  unfold strings.Contains
  rw [strings.Index]
  by_cases hp : substr.isPrefixOf (c :: cs) = true
  · simp [hp]
  · simp only [hp, Bool.false_eq_true, if_false, Bool.false_or]
    by_cases hi : strings.Index cs substr < 0
    · simp [hi]
    · simp only [hi, if_false]
      have h0 : 0 ≤ strings.Index cs substr := not_lt.mp hi
      simp [h0]
      omega

/-- `strings.Contains` is the substring relation. -/
theorem strings.Contains_iff_substring (s substr : GoString) :
    strings.Contains s substr = true ↔ substr <:+: s := by
  induction s with
  | nil => simp [strings.Contains_nil]
  | cons c cs ih =>
    rw [strings.Contains_cons, Bool.or_eq_true, ih, List.isPrefixOf_iff_prefix,
      List.infix_cons_iff]

theorem filterStep_not_found (TrimSpace : GoString → GoString) (firstCmd : GoString)
    (st : FilterState) (item : GoString) (hst : st.findCmd = false)
    (h : strings.Contains (cleanItem item) firstCmd = false) :
    filterStep TrimSpace firstCmd st item = st := by
  simp [filterStep, hst, h]

theorem foldl_filterStep_not_found (TrimSpace : GoString → GoString) (firstCmd : GoString)
    (items : List GoString) (st : FilterState) (hst : st.findCmd = false)
    (h : ∀ item ∈ items, strings.Contains (cleanItem item) firstCmd = false) :
    items.foldl (filterStep TrimSpace firstCmd) st = st := by
  induction items with
  | nil => rfl
  | cons item items ih =>
    rw [List.foldl_cons, filterStep_not_found TrimSpace firstCmd st item hst
      (h item (List.mem_cons_self _ _))]
    exact ih (fun x hx => h x (List.mem_cons_of_mem _ hx))

theorem terminated_cons (line : GoString) (lines : List GoString) :
    terminated (line :: lines) = line ++ newline ++ terminated lines := by
  simp [terminated, concatAll]

theorem foldl_filterStep_found (TrimSpace : GoString → GoString) (firstCmd : GoString)
    (items : List GoString) (st : FilterState) (hst : st.findCmd = true) :
    (items.foldl (filterStep TrimSpace firstCmd) st).findCmd = true ∧
    (items.foldl (filterStep TrimSpace firstCmd) st).filteredResult =
      st.filteredResult ++
        terminated (keptAfter TrimSpace firstCmd st.promptStr (items.map cleanItem)) := by
  induction items generalizing st with
  | nil => simp [hst, keptAfter, terminated, concatAll]
  | cons item items ih =>
    rw [List.foldl_cons, List.map_cons, keptAfter]
    by_cases h1 : st.promptStr = [] ∨ strings.ReplaceByEmpty (cleanItem item) st.promptStr ≠ []
    · have hstep : filterStep TrimSpace firstCmd st item =
          { st with filteredResult := st.filteredResult ++ cleanItem item ++ newline } := by
        rcases h1 with h1 | h1 <;> simp [filterStep, hst, h1]
      rw [hstep, if_pos h1]
      obtain ⟨ha, hb⟩ := ih
        { st with filteredResult := st.filteredResult ++ cleanItem item ++ newline } hst
      refine ⟨ha, ?_⟩
      rw [hb, terminated_cons]
      simp [List.append_assoc]
    · rw [if_neg h1]
      have h1a : st.promptStr ≠ [] := fun h => h1 (Or.inl h)
      have h1b : strings.ReplaceByEmpty (cleanItem item) st.promptStr = [] := by
        by_contra h; exact h1 (Or.inr h)
      by_cases h2 : strings.Contains (cleanItem item) firstCmd = true
      · have hstep : filterStep TrimSpace firstCmd st item =
            { filteredResult := st.filteredResult ++ cleanItem item ++ newline
              findCmd := true
              promptStr := recordPrompt TrimSpace (cleanItem item) firstCmd } := by
          simp [filterStep, hst, h1a, h1b, h2]
        rw [hstep, if_pos h2]
        obtain ⟨ha, hb⟩ := ih
          { filteredResult := st.filteredResult ++ cleanItem item ++ newline
            findCmd := true
            promptStr := recordPrompt TrimSpace (cleanItem item) firstCmd } rfl
        refine ⟨ha, ?_⟩
        rw [hb, terminated_cons]
        simp [List.append_assoc]
      · have hstep : filterStep TrimSpace firstCmd st item = st := by
          simp [filterStep, hst, h1a, h1b, h2]
        rw [hstep, if_neg h2]
        exact ih st hst

theorem keptAfter_nil_prompt (TrimSpace : GoString → GoString) (firstCmd : GoString)
    (lines : List GoString) : keptAfter TrimSpace firstCmd [] lines = lines := by
  induction lines with
  | nil => rfl
  | cons line lines ih => simp [keptAfter, ih]

theorem keptAfter_sublist (TrimSpace : GoString → GoString) (firstCmd : GoString)
    (lines : List GoString) (promptStr : GoString) :
    List.Sublist (keptAfter TrimSpace firstCmd promptStr lines) lines := by
  induction lines generalizing promptStr with
  | nil => simp [keptAfter]
  | cons line lines ih =>
    rw [keptAfter]
    split_ifs
    · exact (ih _).cons₂ _
    · exact (ih _).cons₂ _
    · exact (ih _).cons _

theorem filterResult_found (TrimSpace : GoString → GoString) (raw firstCmd : GoString)
    (before : List GoString) (line : GoString) (after : List GoString)
    (hsplit : strings.Split raw newline = before ++ line :: after)
    (hbefore : ∀ item ∈ before, strings.Contains (cleanItem item) firstCmd = false)
    (hline : strings.Contains (cleanItem line) firstCmd = true) :
    filterResult TrimSpace raw firstCmd =
      terminated (cleanItem line ::
        keptAfter TrimSpace firstCmd (recordPrompt TrimSpace (cleanItem line) firstCmd)
          (after.map cleanItem)) := by
  have hfirst : filterStep TrimSpace firstCmd
      { filteredResult := [], findCmd := false, promptStr := [] } line =
      { filteredResult := cleanItem line ++ newline
        findCmd := true
        promptStr := recordPrompt TrimSpace (cleanItem line) firstCmd } := by
    simp [filterStep, hline]
  unfold filterResult
  rw [hsplit, List.foldl_append, foldl_filterStep_not_found TrimSpace firstCmd before _ rfl hbefore,
    List.foldl_cons, hfirst]
  obtain ⟨ha, hb⟩ := foldl_filterStep_found TrimSpace firstCmd after
    { filteredResult := cleanItem line ++ newline
      findCmd := true
      promptStr := recordPrompt TrimSpace (cleanItem line) firstCmd } rfl
  simp only [ha, hb, terminated_cons]
  simp

theorem exists_first_match (p : GoString → Bool) (items : List GoString)
    (h : ∃ item ∈ items, p item = true) :
    ∃ before line after, items = before ++ line :: after ∧
      (∀ item ∈ before, p item = false) ∧ p line = true := by
  induction items with
  | nil => simp at h
  | cons item items ih =>
    by_cases hp : p item = true
    · exact ⟨[], item, items, rfl, by simp, hp⟩
    · have h2 : ∃ x ∈ items, p x = true := by
        obtain ⟨x, hx, hpx⟩ := h
        rcases List.mem_cons.mp hx with rfl | hx
        · exact absurd hpx hp
        · exact ⟨x, hx, hpx⟩
      obtain ⟨before, line, after, he, hb, hl⟩ := ih h2
      refine ⟨item :: before, line, after, by simp [he], ?_, hl⟩
      intro x hx
      rcases List.mem_cons.mp hx with rfl | hx
      · simpa using hp
      · exact hb x hx

theorem adjacent_iff_substring (x y : UInt8) (s : GoString) :
    adjacent x y s = true ↔ [x, y] <:+: s := by
  induction s with
  | nil => simp [adjacent]
  | cons c t ih =>
    rw [List.infix_cons_iff, ← ih]
    cases t with
    | nil => simp [adjacent, List.prefix_cons_iff]
    | cons d r =>
      simp only [adjacent, Bool.or_eq_true, Bool.and_eq_true, beq_iff_eq]
      simp [List.cons_prefix_cons]
      tauto

theorem strings.replaceScan_skip (old : GoString) (skip : Nat) (s : GoString) :
    strings.replaceScan old skip s = strings.replaceScan old 0 (s.drop skip) := by
  induction s generalizing skip with
  | nil => simp [strings.replaceScan]
  | cons c cs ih =>
    cases skip with
    | zero => rfl
    | succ k => rw [strings.replaceScan, ih k, List.drop_succ_cons]

theorem strings.replaceScan_cons (old : GoString) (hold : old ≠ []) (c : UInt8)
    (cs : GoString) :
    strings.replaceScan old 0 (c :: cs) =
      if old.isPrefixOf (c :: cs) then strings.replaceScan old 0 ((c :: cs).drop old.length)
      else c :: strings.replaceScan old 0 cs := by
  rw [strings.replaceScan]
  split_ifs with h
  · rw [strings.replaceScan_skip]
    have hl : old.length = (old.length - 1) + 1 := by
      have := List.length_pos.mpr hold
      omega
    conv_rhs => rw [hl, List.drop_succ_cons]
  · rfl

/-- What follows a removed occurrence: the head of the scan's result either is
the head of the input, where no occurrence starts, or follows the last byte
of an occurrence in the input. -/
theorem strings.replaceScan_head_aux (front : GoString) (z y : UInt8) (n : Nat) :
    ∀ s : GoString, s.length = n →
    (strings.replaceScan (front ++ [z]) 0 s).head? = some y →
    (s.head? = some y ∧ (front ++ [z]).isPrefixOf s = false) ∨ [z, y] <:+: s := by
  induction n using Nat.strong_induction_on with
  | _ n ih =>
    intro s hn h
    cases s with
    | nil => simp [strings.replaceScan] at h
    | cons c cs =>
      rw [strings.replaceScan_cons _ (by simp)] at h
      by_cases hp : (front ++ [z]).isPrefixOf (c :: cs) = true
      · rw [if_pos hp] at h
        obtain ⟨t, ht⟩ := List.isPrefixOf_iff_prefix.mp hp
        have hdrop : (c :: cs).drop (front ++ [z]).length = t := by
          rw [← ht, List.drop_left]
        rw [hdrop] at h
        have hlen : t.length < n := by
          rw [← hn, ← ht]; simp; omega
        right
        rcases ih t.length hlen t rfl h with ⟨hh, _⟩ | hin
        · cases t with
          | nil => simp at hh
          | cons d r =>
            simp only [List.head?_cons, Option.some.injEq] at hh
            subst hh
            rw [← ht]
            exact ⟨front, r, by simp⟩
        · rw [← ht]
          exact hin.trans (List.suffix_append _ _).isInfix
      · rw [if_neg hp] at h
        simp only [List.head?_cons, Option.some.injEq] at h
        left
        exact ⟨by simp [h], Bool.eq_false_iff.mpr hp⟩

/-- The head of the scan's result either is the head of the input, where no
occurrence starts, or follows the last byte of an occurrence in the input. -/
theorem strings.replaceScan_head (front : GoString) (z y : UInt8) (s : GoString)
    (h : (strings.replaceScan (front ++ [z]) 0 s).head? = some y) :
    (s.head? = some y ∧ (front ++ [z]).isPrefixOf s = false) ∨ [z, y] <:+: s :=
  strings.replaceScan_head_aux front z y s.length s rfl h

theorem strings.replaceScan_pair_aux (front : GoString) (z x y : UInt8) (n : Nat) :
    ∀ s : GoString, s.length = n →
    [x, y] <:+: strings.replaceScan (front ++ [z]) 0 s →
    (∃ u t, s = u ++ x :: y :: t ∧ (front ++ [z]).isPrefixOf (x :: y :: t) = false) ∨
      [z, y] <:+: s := by
  induction n using Nat.strong_induction_on with
  | _ n ih =>
    intro s hn h
    cases s with
    | nil => simp [strings.replaceScan] at h
    | cons c cs =>
      rw [strings.replaceScan_cons _ (by simp)] at h
      by_cases hp : (front ++ [z]).isPrefixOf (c :: cs) = true
      · rw [if_pos hp] at h
        obtain ⟨t, ht⟩ := List.isPrefixOf_iff_prefix.mp hp
        have hdrop : (c :: cs).drop (front ++ [z]).length = t := by
          rw [← ht, List.drop_left]
        rw [hdrop] at h
        have hlen : t.length < n := by
          rw [← hn, ← ht]; simp; omega
        rcases ih t.length hlen t rfl h with ⟨u, t2, hu, hnp⟩ | hin
        · left
          exact ⟨(front ++ [z]) ++ u, t2, by rw [← ht, hu]; simp, hnp⟩
        · right
          rw [← ht]
          exact hin.trans (List.suffix_append _ _).isInfix
      · rw [if_neg hp] at h
        rcases List.infix_cons_iff.mp h with hpre | hin
        · have hcx : c = x := by
            obtain ⟨t, ht⟩ := hpre
            simp at ht
            exact ht.1.symm
          have hhead : (strings.replaceScan (front ++ [z]) 0 cs).head? = some y := by
            obtain ⟨t, ht⟩ := hpre
            simp at ht
            rw [← ht.2]
            rfl
          subst hcx
          rcases strings.replaceScan_head front z y cs hhead with ⟨hh, _⟩ | hzy
          · left
            cases cs with
            | nil => simp at hh
            | cons d r =>
              simp only [List.head?_cons, Option.some.injEq] at hh
              subst hh
              exact ⟨[], r, rfl, Bool.eq_false_iff.mpr hp⟩
          · right
            exact hzy.trans (List.suffix_cons _ _).isInfix
        · have hlen : cs.length < n := by rw [← hn]; simp
          rcases ih cs.length hlen cs rfl hin with ⟨u, t2, hu, hnp⟩ | hzy
          · left
            exact ⟨c :: u, t2, by rw [hu]; rfl, hnp⟩
          · right
            exact hzy.trans (List.suffix_cons _ _).isInfix

/-- Two bytes adjacent after the removal of the occurrences of `old` either
were adjacent in the input at a place where no occurrence starts, or the
second one followed the last byte of `old` in the input. -/
theorem strings.ReplaceByEmpty_pair (front : GoString) (z x y : UInt8) (s : GoString)
    (h : [x, y] <:+: strings.ReplaceByEmpty s (front ++ [z])) :
    (∃ u t, s = u ++ x :: y :: t ∧ (front ++ [z]).isPrefixOf (x :: y :: t) = false) ∨
      [z, y] <:+: s := by
  have hne : front ++ [z] ≠ [] := by simp
  rw [strings.ReplaceByEmpty, if_neg hne] at h
  exact strings.replaceScan_pair_aux front z x y s.length s rfl h

/-- A cleaned line holds no space directly followed by a backspace when, in
the line, no backspace directly follows a backspace or the letter `D`. -/
theorem cleanItem_no_spaceBackspace (item : GoString)
    (hbb : ¬ [8, 8] <:+: item) (hdb : ¬ [68, 8] <:+: item) :
    ¬ spaceBackspace <:+: cleanItem item := by
  have h1 : ¬ [32, 8] <:+: strings.ReplaceByEmpty item spaceBackspace := by
    intro h
    rcases strings.ReplaceByEmpty_pair [32] 8 32 8 item h with ⟨u, t, _, hnp⟩ | hzy
    · simp [List.isPrefixOf] at hnp
    · exact hbb hzy
  have h2 : ¬ [68, 8] <:+: strings.ReplaceByEmpty item spaceBackspace := by
    intro h
    rcases strings.ReplaceByEmpty_pair [32] 8 68 8 item h with ⟨u, t, hu, _⟩ | hzy
    · exact hdb ⟨u, t, by rw [hu]; simp⟩
    · exact hbb hzy
  unfold cleanItem
  simp only
  split_ifs
  · intro h
    rcases strings.ReplaceByEmpty_pair [32, 27, 91, 49] 68 32 8 _ h with ⟨u, t, hu, _⟩ | hzy
    · exact h1 ⟨u, t, by rw [hu]; simp⟩
    · exact h2 hzy
  · exact h1

theorem strings.splitScan_single (b c : UInt8) (cs : GoString) :
    strings.splitScan [b] 0 (c :: cs) =
      if b = c then [] :: strings.splitScan [b] 0 cs
      else
        match strings.splitScan [b] 0 cs with
        | [] => [[c]]
        | piece :: pieces => (c :: piece) :: pieces := by
  rw [strings.splitScan]
  by_cases h : b = c <;> simp [List.isPrefixOf, h]

theorem strings.splitScan_single_shape (b : UInt8) (s : GoString) :
    ∃ piece pieces, strings.splitScan [b] 0 s = piece :: pieces ∧ piece <+: s ∧
      ∀ q ∈ pieces, q <:+: s := by
  induction s with
  | nil => exact ⟨[], [], by simp [strings.splitScan], List.prefix_refl _, by simp⟩
  | cons c cs ih =>
    obtain ⟨piece, pieces, he, hp, hq⟩ := ih
    rw [strings.splitScan_single]
    by_cases h : b = c
    · rw [if_pos h, he]
      refine ⟨[], piece :: pieces, rfl, List.nil_prefix, ?_⟩
      intro q hmem
      rcases List.mem_cons.mp hmem with rfl | hmem
      · exact hp.isInfix.trans (List.suffix_cons _ _).isInfix
      · exact (hq q hmem).trans (List.suffix_cons _ _).isInfix
    · rw [if_neg h, he]
      refine ⟨c :: piece, pieces, rfl, ?_, ?_⟩
      · exact List.cons_prefix_cons.mpr ⟨rfl, hp⟩
      · intro q hmem
        exact (hq q hmem).trans (List.suffix_cons _ _).isInfix

/-- Every piece of `strings.Split(s, "\n")` is a substring of `s`. -/
theorem strings.Split_newline_substring (s piece : GoString)
    (h : piece ∈ strings.Split s newline) : piece <:+: s := by
  obtain ⟨p, ps, he, hp, hq⟩ := strings.splitScan_single_shape 10 s
  have he2 : strings.Split s newline = p :: ps := he
  rw [he2] at h
  rcases List.mem_cons.mp h with rfl | hmem
  · exact hp.isInfix
  · exact hq piece hmem

theorem adjacent_append_separator (x y sep : UInt8) (hx : sep ≠ x) (hy : sep ≠ y)
    (line rest : GoString) :
    adjacent x y (line ++ sep :: rest) = (adjacent x y line || adjacent x y rest) := by
  induction line with
  | nil =>
    cases rest with
    | nil => simp [adjacent]
    | cons d r => simp [adjacent, hx]
  | cons c t ih =>
    cases t with
    | nil =>
      have h0 : adjacent x y (sep :: rest) = adjacent x y rest := by simpa [adjacent] using ih
      simp [adjacent, hy, h0]
    | cons d r =>
      have h1 : adjacent x y (c :: d :: r ++ sep :: rest) =
          ((c == x && d == y) || adjacent x y (d :: r ++ sep :: rest)) := by
        simp [adjacent]
      have h2 : adjacent x y (c :: d :: r) = ((c == x && d == y) || adjacent x y (d :: r)) := by
        simp [adjacent]
      rw [h1, h2, ih, Bool.or_assoc]

theorem adjacent_terminated (x y : UInt8) (hx : (10 : UInt8) ≠ x) (hy : (10 : UInt8) ≠ y)
    (lines : List GoString) (h : adjacent x y (terminated lines) = true) :
    ∃ line ∈ lines, adjacent x y line = true := by
  induction lines with
  | nil => simp [terminated, concatAll, adjacent] at h
  | cons line lines ih =>
    rw [terminated_cons] at h
    have h2 : adjacent x y (line ++ 10 :: terminated lines) = true := by
      simpa [newline] using h
    rw [adjacent_append_separator x y 10 hx hy, Bool.or_eq_true] at h2
    rcases h2 with h2 | h2
    · exact ⟨line, List.mem_cons_self _ _, h2⟩
    · obtain ⟨l, hl, hadj⟩ := ih h2
      exact ⟨l, List.mem_cons_of_mem _ hl, hadj⟩

/-- When the command is found and, in the raw text, no backspace directly
follows a backspace or the letter `D`, the filtered result holds no space
directly followed by a backspace. -/
theorem filterResult_no_spaceBackspace (TrimSpace : GoString → GoString)
    (raw firstCmd : GoString)
    (hfound : ∃ item ∈ strings.Split raw newline,
      strings.Contains (cleanItem item) firstCmd = true)
    (hbb : ¬ [8, 8] <:+: raw) (hdb : ¬ [68, 8] <:+: raw) :
    ¬ spaceBackspace <:+: filterResult TrimSpace raw firstCmd := by
  obtain ⟨before, line, after, hsplit, hbefore, hline⟩ :=
    exists_first_match (fun item => strings.Contains (cleanItem item) firstCmd) _ hfound
  rw [filterResult_found TrimSpace raw firstCmd before line after hsplit hbefore hline]
  intro hin
  have hadj := (adjacent_iff_substring 32 8 _).mpr hin
  obtain ⟨l, hl, hladj⟩ := adjacent_terminated 32 8 (by decide) (by decide) _ hadj
  have hclean : ∃ item ∈ strings.Split raw newline, l = cleanItem item := by
    rcases List.mem_cons.mp hl with rfl | hl
    · exact ⟨line, by rw [hsplit]; simp, rfl⟩
    · have hsub := (keptAfter_sublist TrimSpace firstCmd (after.map cleanItem) _).subset hl
      obtain ⟨item, hitem, rfl⟩ := List.mem_map.mp hsub
      exact ⟨item, by rw [hsplit]; simp [hitem], rfl⟩
  obtain ⟨item, hitem, rfl⟩ := hclean
  have hinf := strings.Split_newline_substring raw item hitem
  exact cleanItem_no_spaceBackspace item (fun h => hbb (h.trans hinf))
    (fun h => hdb (h.trans hinf)) ((adjacent_iff_substring 32 8 _).mp hladj)

/-! ## Lemmas on the read loops -/

theorem hasIdlePair_iff_two_empty (polls : List Poll) :
    hasIdlePair polls = true ↔ [none, none] <:+: polls := by
  induction polls with
  | nil => simp [hasIdlePair]
  | cons p t ih =>
    rw [List.infix_cons_iff, ← ih]
    cases p with
    | some c => simp [hasIdlePair, List.cons_prefix_cons]
    | none =>
      cases t with
      | nil => simp [hasIdlePair, List.prefix_cons_iff]
      | cons q r =>
        cases q with
        | none => simp [hasIdlePair, List.cons_prefix_cons]
        | some c => simp [hasIdlePair, List.cons_prefix_cons]

theorem hasIdlePair_of_part (part polls : List Poll) (h : part <:+: polls)
    (hfree : hasIdlePair polls = false) : hasIdlePair part = false := by
  by_contra hc
  have h1 : hasIdlePair part = true := by simpa using hc
  have h2 := ((hasIdlePair_iff_two_empty part).mp h1).trans h
  rw [(hasIdlePair_iff_two_empty polls).mpr h2] at hfree
  exact Bool.noConfusion hfree

theorem expectLoop_pending (d : Float32) (expects : List GoString) (polls : List Poll) :
    ∀ st : ReadState, (∀ c ∈ chunks polls, matchesAny expects c = false) →
      hasIdlePair (idleStart st ++ polls) = false →
      expectLoop d expects polls st = none := by
  induction polls with
  | nil => intro st _ _; rfl
  | cons p t ih =>
    intro st hquiet hidle
    cases p with
    | some c =>
      have hc : matchesAny expects c = false := hquiet c (by simp [chunks])
      have hc2 : (expects.any fun expect => strings.Contains c expect) = false := hc
      rw [expectLoop]
      simp only [hc2, Bool.false_eq_true, if_false]
      apply ih
      · intro x hx
        exact hquiet x (by simp [chunks] at hx ⊢; exact Or.inr hx)
      · refine hasIdlePair_of_part _ _ ?_ hidle
        simp only [idleStart, Bool.false_eq_true, if_false, List.nil_append]
        exact (List.suffix_cons _ _).isInfix.trans (List.suffix_append _ _).isInfix
    | none =>
      rw [expectLoop]
      by_cases hd : st.isDelay = true
      · rw [idleStart, if_pos hd] at hidle
        simp [hasIdlePair] at hidle
      · rw [if_neg hd]
        apply ih
        · intro x hx
          exact hquiet x (by simpa [chunks] using hx)
        · rw [idleStart, if_neg hd] at hidle
          simpa [idleStart] using hidle

theorem expectLoop_returns (d : Float32) (expects : List GoString) (stop rest : List Poll)
    (hstop : stop = [none, none] ∨ ∃ c, stop = [some c] ∧ matchesAny expects c = true)
    (before : List Poll) :
    ∀ st : ReadState, (∀ c ∈ chunks before, matchesAny expects c = false) →
      hasIdlePair (idleStart st ++ before ++ stop.take 1) = false →
      ∃ b, expectLoop d expects (before ++ stop ++ rest) st =
        some ({ result := st.result ++ concatAll (chunks (before ++ stop))
                isDelay := b
                slept := st.slept ++
                  List.replicate ((before ++ stop.take 1).count none) (sleepArgument d) },
          rest) := by
  induction before with
  | nil =>
    intro st _ hidle
    rcases hstop with rfl | ⟨c, rfl, hc⟩
    · have hd : st.isDelay = false := by
        by_contra hd
        have hd2 : st.isDelay = true := by simpa using hd
        rw [idleStart, if_pos hd2] at hidle
        simp [hasIdlePair] at hidle
      refine ⟨true, ?_⟩
      simp [expectLoop, hd, chunks, concatAll]
    · have hc2 : (expects.any fun expect => strings.Contains c expect) = true := hc
      refine ⟨false, ?_⟩
      simp [expectLoop, hc2, chunks, concatAll]
  | cons p t ih =>
    intro st hquiet hidle
    cases p with
    | some c =>
      have hc : matchesAny expects c = false := hquiet c (by simp [chunks])
      have hc2 : (expects.any fun expect => strings.Contains c expect) = false := hc
      obtain ⟨b, hb⟩ := ih { st with isDelay := false, result := st.result ++ c }
        (fun x hx => hquiet x (by simp [chunks] at hx ⊢; exact Or.inr hx))
        (by
          refine hasIdlePair_of_part _ _ ?_ hidle
          simp only [idleStart, Bool.false_eq_true, if_false, List.nil_append]
          rw [List.append_assoc, List.cons_append]
          exact (List.suffix_cons _ _).isInfix.trans (List.suffix_append _ _).isInfix)
      refine ⟨b, ?_⟩
      rw [List.cons_append, List.cons_append, expectLoop]
      simp only [hc2, Bool.false_eq_true, if_false]
      rw [hb]
      simp [chunks, concatAll]
    | none =>
      have hd : st.isDelay = false := by
        by_contra hd
        have hd2 : st.isDelay = true := by simpa using hd
        rw [idleStart, if_pos hd2] at hidle
        simp [hasIdlePair] at hidle
      obtain ⟨b, hb⟩ := ih
        { st with slept := st.slept ++ [sleepArgument d], isDelay := true }
        (fun x hx => hquiet x (by simpa [chunks] using hx))
        (by simpa [idleStart, hd] using hidle)
      refine ⟨b, ?_⟩
      rw [List.cons_append, List.cons_append, expectLoop]
      simp only [hd, Bool.false_eq_true, if_false]
      rw [hb]
      simp [chunks, concatAll, Nat.add_comm 1, List.replicate_succ]

theorem timingLoop_eq_expectLoop (d : Float32) (polls : List Poll) :
    ∀ st : ReadState, timingLoop d polls st = expectLoop d [] polls st := by
  induction polls with
  | nil => intro st; rfl
  | cons p t ih =>
    intro st
    cases p with
    | some c => simp [timingLoop, expectLoop, ih]
    | none => simp [timingLoop, expectLoop, ih]

theorem matchesAny_nil (chunk : GoString) : matchesAny [] chunk = false := rfl

theorem chunks_append (a b : List Poll) : chunks (a ++ b) = chunks a ++ chunks b := by
  simp [chunks]

theorem concatAll_append (a b : List GoString) :
    concatAll (a ++ b) = concatAll a ++ concatAll b := by
  induction a with
  | nil => rfl
  | cons x xs ih => simp [concatAll, ih]

theorem ReadChannelExpect_returns (d : Float32) (expects : List GoString) (s : SSHSession)
    (before stop rest : List Poll) (hout : s.out = before ++ stop ++ rest)
    (hquiet : ∀ c ∈ chunks before, matchesAny expects c = false)
    (hidle : hasIdlePair (before ++ stop.take 1) = false)
    (hstop : stop = [none, none] ∨ ∃ c, stop = [some c] ∧ matchesAny expects c = true) :
    ReadChannelExpect d expects s =
      some (concatAll (chunks (before ++ stop)),
        { s with
          out := rest
          slept := s.slept ++
            List.replicate ((before ++ stop.take 1).count none) (sleepArgument d) }) := by
  obtain ⟨b, hb⟩ := expectLoop_returns d expects stop rest hstop before
    { result := [], isDelay := false, slept := s.slept } hquiet
    (by simpa [idleStart] using hidle)
  unfold ReadChannelExpect
  rw [hout, hb]
  simp

theorem ReadChannelExpect_pending (d : Float32) (expects : List GoString) (s : SSHSession)
    (hquiet : ∀ c ∈ chunks s.out, matchesAny expects c = false)
    (hidle : hasIdlePair s.out = false) :
    ReadChannelExpect d expects s = none := by
  unfold ReadChannelExpect
  rw [expectLoop_pending d expects s.out _ hquiet (by simpa [idleStart] using hidle)]

theorem ReadChannelTiming_eq (d : Float32) (s : SSHSession) :
    ReadChannelTiming d s = ReadChannelExpect d [] s := by
  unfold ReadChannelTiming ReadChannelExpect
  rw [timingLoop_eq_expectLoop]

theorem ReadChannelTiming_returns (d : Float32) (s : SSHSession) (before rest : List Poll)
    (hout : s.out = before ++ none :: none :: rest)
    (hfirst : hasIdlePair (before ++ [none]) = false) :
    ReadChannelTiming d s =
      some (concatAll (chunks before),
        { s with
          out := rest
          slept := s.slept ++ List.replicate (before.count none + 1) (sleepArgument d) }) := by
  rw [ReadChannelTiming_eq,
    ReadChannelExpect_returns d [] s before [none, none] rest (by simp [hout])
      (fun c _ => matchesAny_nil c) (by simpa using hfirst) (Or.inl rfl)]
  simp [chunks_append, chunks]

theorem ReadChannelTiming_pending (d : Float32) (s : SSHSession)
    (hidle : hasIdlePair s.out = false) : ReadChannelTiming d s = none := by
  rw [ReadChannelTiming_eq]
  exact ReadChannelExpect_pending d [] s (fun c _ => matchesAny_nil c) hidle

theorem WriteChannel_open (cmds : List GoString) :
    ∀ s : SSHSession, s.inClosed = false → cmds.length ≤ s.writerAccepts →
      WriteChannel s cmds =
        Sending.completed
          { s with sent := s.sent ++ cmds, writerAccepts := s.writerAccepts - cmds.length } := by
  induction cmds with
  | nil => intro s _ _; simp [WriteChannel]
  | cons cmd cmds ih =>
    intro s h hw
    rw [WriteChannel, if_neg (by simp [h])]
    split
    · rename_i hzero
      simp [hzero] at hw
    · rename_i accepts hacc
      rw [ih { s with sent := s.sent ++ [cmd], writerAccepts := accepts } h
        (by simp only [List.length_cons, hacc] at hw ⊢; omega)]
      simp [hacc]

theorem WriteChannel_closed (s : SSHSession) (cmd : GoString) (cmds : List GoString)
    (h : s.inClosed = true) :
    WriteChannel s (cmd :: cmds) = Sending.panicked s "send on closed channel" := by
  rw [WriteChannel, if_pos h]

/-- A send that finds the writer goroutine gone never completes. -/
theorem WriteChannel_blocked (cmds : List GoString) :
    ∀ s : SSHSession, s.inClosed = false → s.writerAccepts < cmds.length →
      ∃ t, WriteChannel s cmds = Sending.blocked t := by
  induction cmds with
  | nil => intro s _ hw; simp at hw
  | cons cmd cmds ih =>
    intro s h hw
    rw [WriteChannel, if_neg (by simp [h])]
    split
    · exact ⟨s, rfl⟩
    · rename_i accepts hacc
      exact ih { s with sent := s.sent ++ [cmd], writerAccepts := accepts } h
        (by simp only [List.length_cons, hacc] at hw ⊢; omega)

theorem take_prefix_of_lt (a b : List Poll) (k : Nat) (hk : k ≤ a.length) :
    (a ++ b).take k <+: a := by
  rw [List.take_append_of_le_length hk]
  exact List.take_prefix _ _

theorem sleepArgument_whole_seconds (n : Int) (h0 : 0 ≤ n) (h1 : n ≤ 9223372036) :
    sleepArgument ⟨n, 0⟩ = n * 1000000000 := by
  simp only [sleepArgument, Float32.toDuration, wrapInt64, Second]
  norm_num
  omega

/-! ## The result filter -/

/-- C1, as amended: when no line of `raw`, once cleaned of the `" \b"` and
cursor-left sequences, contains `firstCmd`, `filterResult` returns `raw`
unchanged. -/
theorem filterResult_unchanged_when_not_found (TrimSpace : GoString → GoString)
    (raw firstCmd : GoString)
    (h : ∀ item ∈ strings.Split raw newline,
      strings.Contains (cleanItem item) firstCmd = false) :
    filterResult TrimSpace raw firstCmd = raw := by
  unfold filterResult
  rw [foldl_filterStep_not_found TrimSpace firstCmd _ _ rfl h]
  rfl

/-- Witness of C1 as amended: `"hello\nworld"` filtered for `"xyz"`. -/
theorem filterResult_unchanged_when_not_found_witness :
    (∀ item ∈ strings.Split (lit "hello\nworld") newline,
      strings.Contains (cleanItem item) (lit "xyz") = false) ∧
    filterResult asciiTrimSpace (lit "hello\nworld") (lit "xyz") = lit "hello\nworld" :=
  ⟨by decide,
    filterResult_unchanged_when_not_found asciiTrimSpace (lit "hello\nworld") (lit "xyz")
      (by decide)⟩

/-- C1 as stated fails: no line of `"a \bb"` contains `"ab"`, and the result is
not the raw text (the cleaned line `"ab"` contains the command). -/
theorem filterResult_raw_line_counterexample :
    (∀ item ∈ strings.Split (lit "a \x08b") newline,
      strings.Contains item (lit "ab") = false) ∧
    filterResult asciiTrimSpace (lit "a \x08b") (lit "ab") = lit "ab\n" ∧
    filterResult asciiTrimSpace (lit "a \x08b") (lit "ab") ≠ lit "a \x08b" := by
  decide

/-- C2, as amended: when `line` is the first line whose cleaned text contains
`firstCmd`, the result is that cleaned line and then, in order, the cleaned
following lines that `keptAfter` keeps, each followed by a line feed: a line
is left out only when the recorded prompt is not empty, the line does not
contain `firstCmd`, and removing the prompt from the line leaves nothing.
No line is added or reordered, and with an empty recorded prompt every
following line is kept. -/
theorem filterResult_from_first_match (TrimSpace : GoString → GoString)
    (raw firstCmd : GoString) (before : List GoString) (line : GoString)
    (after : List GoString)
    (hsplit : strings.Split raw newline = before ++ line :: after)
    (hbefore : ∀ item ∈ before, strings.Contains (cleanItem item) firstCmd = false)
    (hline : strings.Contains (cleanItem line) firstCmd = true) :
    filterResult TrimSpace raw firstCmd =
      terminated (cleanItem line ::
        keptAfter TrimSpace firstCmd (recordPrompt TrimSpace (cleanItem line) firstCmd)
          (after.map cleanItem)) ∧
    List.Sublist
      (keptAfter TrimSpace firstCmd (recordPrompt TrimSpace (cleanItem line) firstCmd)
        (after.map cleanItem))
      (after.map cleanItem) ∧
    (recordPrompt TrimSpace (cleanItem line) firstCmd = [] →
      filterResult TrimSpace raw firstCmd = terminated ((line :: after).map cleanItem)) := by
  have hmain := filterResult_found TrimSpace raw firstCmd before line after hsplit hbefore hline
  refine ⟨hmain, keptAfter_sublist _ _ _ _, ?_⟩
  intro hprompt
  rw [hmain, hprompt, keptAfter_nil_prompt]
  rfl

/-- Witness of C2 as amended: the example of the specification. -/
theorem filterResult_from_first_match_witness :
    strings.Split (lit "sw1>disp version\nHuawei ...\nsw1>") newline =
      [] ++ lit "sw1>disp version" :: [lit "Huawei ...", lit "sw1>"] ∧
    filterResult asciiTrimSpace (lit "sw1>disp version\nHuawei ...\nsw1>")
        (lit "disp version") =
      terminated (cleanItem (lit "sw1>disp version") ::
        keptAfter asciiTrimSpace (lit "disp version")
          (recordPrompt asciiTrimSpace (cleanItem (lit "sw1>disp version"))
            (lit "disp version"))
          ([lit "Huawei ...", lit "sw1>"].map cleanItem)) :=
  ⟨by decide,
    (filterResult_from_first_match asciiTrimSpace (lit "sw1>disp version\nHuawei ...\nsw1>")
      (lit "disp version") [] (lit "sw1>disp version") [lit "Huawei ...", lit "sw1>"]
      (by decide) (by decide) (by decide)).1⟩

/-- C2 as stated fails on the example of the specification: the prompt recorded
is `"sw1>"`, the result ends after the line `"Huawei ..."`, and the final line
`"sw1>"` is not part of it. -/
theorem filterResult_prompt_line_counterexample :
    recordPrompt asciiTrimSpace (cleanItem (lit "sw1>disp version")) (lit "disp version") =
      lit "sw1>" ∧
    filterResult asciiTrimSpace (lit "sw1>disp version\nHuawei ...\nsw1>")
        (lit "disp version") = lit "sw1>disp version\nHuawei ...\n" ∧
    lit "sw1>" ∉ strings.Split
      (filterResult asciiTrimSpace (lit "sw1>disp version\nHuawei ...\nsw1>")
        (lit "disp version")) newline := by
  decide

/-- C9 fails at `raw = "cmd  \b\b"`, `firstCmd = "cmd"`: the command is found,
and the one pass of `strings.Replace` removes the inner `" \b"` and leaves the
output line `"cmd \b"`, which contains `" \b"`.  The removal of the
cursor-left sequence leaves the same line from `"cmd  " ++ ESC ++ "[1D\b"`. -/
theorem filterResult_leaves_spaceBackspace :
    strings.Contains (lit "cmd  \x08\x08") (lit "cmd") = true ∧
    filterResult asciiTrimSpace (lit "cmd  \x08\x08") (lit "cmd") = lit "cmd \x08\n" ∧
    (∃ line ∈ strings.Split (filterResult asciiTrimSpace (lit "cmd  \x08\x08") (lit "cmd"))
        newline, strings.Contains line spaceBackspace = true) ∧
    filterResult asciiTrimSpace (lit "cmd  \x1b[1D\x08") (lit "cmd") = lit "cmd \x08\n" := by
  decide

/-! ## The timed readers -/

/-- C3: when `before` is what is polled before the first two consecutive empty
polls, `ReadChannelTiming` returns the concatenation, in arrival order, of the
chunks of `before`, having consumed exactly `before` and the two empty polls;
and it has not returned after any smaller number of polls: an empty poll
followed by a chunk does not end the read. -/
theorem ReadChannelTiming_returns_at_first_idle_pair (d : Float32) (s : SSHSession)
    (before rest : List Poll) (hout : s.out = before ++ none :: none :: rest)
    (hfirst : hasIdlePair (before ++ [none]) = false) :
    ReadChannelTiming d s =
      some (concatAll (chunks before),
        { s with
          out := rest
          slept := s.slept ++ List.replicate (before.count none + 1) (sleepArgument d) }) ∧
    ∀ k, k < before.length + 2 →
      ReadChannelTiming d { s with out := s.out.take k } = none := by
  refine ⟨ReadChannelTiming_returns d s before rest hout hfirst, ?_⟩
  intro k hk
  apply ReadChannelTiming_pending
  have hpre : s.out.take k <+: before ++ [none] := by
    have hout2 : s.out = (before ++ [none]) ++ none :: rest := by simp [hout]
    rw [hout2]
    exact take_prefix_of_lt _ _ k (by simp; omega)
  exact hasIdlePair_of_part _ _ hpre.isInfix hfirst

/-- Witness of C3: an empty poll between two chunks does not end the read;
after four polls the read has not returned, after five it has. -/
theorem ReadChannelTiming_returns_at_first_idle_pair_witness :
    hasIdlePair ([some (lit "ab"), none, some (lit "cd")] ++ [none]) = false ∧
    ReadChannelTiming ⟨1, 0⟩
        (freshSession 0 [some (lit "ab"), none, some (lit "cd"), none, none, some (lit "zz")]) =
      some (lit "abcd",
        { freshSession 0 [some (lit "zz")] with slept := [1000000000, 1000000000] }) ∧
    ReadChannelTiming ⟨1, 0⟩
        (freshSession 0 [some (lit "ab"), none, some (lit "cd"), none]) = none :=
  ⟨by decide,
    (ReadChannelTiming_returns_at_first_idle_pair ⟨1, 0⟩
      (freshSession 0 [some (lit "ab"), none, some (lit "cd"), none, none, some (lit "zz")])
      [some (lit "ab"), none, some (lit "cd")] [some (lit "zz")] rfl (by decide)).1,
    (ReadChannelTiming_returns_at_first_idle_pair ⟨1, 0⟩
      (freshSession 0 [some (lit "ab"), none, some (lit "cd"), none, none, some (lit "zz")])
      [some (lit "ab"), none, some (lit "cd")] [some (lit "zz")] rfl (by decide)).2 4
      (by decide)⟩

/-- C4: `stop` is what ends the read, either the first chunk containing an
expected string or the first two consecutive empty polls.  `ReadChannelExpect`
returns the concatenation of the chunks consumed up to and including `stop`,
leaves every later poll unconsumed, ends its result with the matching chunk,
and has not returned after any smaller number of polls. -/
theorem ReadChannelExpect_stops_at_match_or_idle (d : Float32) (expects : List GoString)
    (s : SSHSession) (before stop rest : List Poll) (hout : s.out = before ++ stop ++ rest)
    (hquiet : ∀ c ∈ chunks before, matchesAny expects c = false)
    (hidle : hasIdlePair (before ++ stop.take 1) = false)
    (hstop : stop = [none, none] ∨ ∃ c, stop = [some c] ∧ matchesAny expects c = true) :
    ReadChannelExpect d expects s =
      some (concatAll (chunks (before ++ stop)),
        { s with
          out := rest
          slept := s.slept ++
            List.replicate ((before ++ stop.take 1).count none) (sleepArgument d) }) ∧
    (∀ c, stop = [some c] → c <:+ concatAll (chunks (before ++ stop))) ∧
    (stop = [none, none] →
      concatAll (chunks (before ++ stop)) = concatAll (chunks before)) ∧
    ∀ k, k < before.length + stop.length →
      ReadChannelExpect d expects { s with out := s.out.take k } = none := by
  refine ⟨ReadChannelExpect_returns d expects s before stop rest hout hquiet hidle hstop,
    ?_, ?_, ?_⟩
  · intro c hc
    subst hc
    rw [chunks_append, concatAll_append]
    simp [chunks, concatAll]
  · intro hs
    subst hs
    simp [chunks_append, chunks]
  · intro k hk
    have hpre : s.out.take k <+: before ++ stop.dropLast := by
      have hsplit : stop = stop.dropLast ++ stop.drop (stop.length - 1) := by
        rcases hstop with rfl | ⟨c, rfl, _⟩ <;> rfl
      have hout2 : s.out = (before ++ stop.dropLast) ++ (stop.drop (stop.length - 1) ++ rest) := by
        rw [hout]
        conv_lhs => rw [hsplit]
        simp
      rw [hout2]
      refine take_prefix_of_lt _ _ k ?_
      rcases hstop with rfl | ⟨c, rfl, _⟩ <;> simp at hk ⊢ <;> omega
    have hin : before ++ stop.dropLast <:+: before ++ stop.take 1 := by
      rcases hstop with rfl | ⟨c, rfl, _⟩
      · exact List.infix_refl _
      · simpa using (List.prefix_append before [some c]).isInfix
    have hchunks : chunks (before ++ stop.dropLast) = chunks before := by
      rcases hstop with rfl | ⟨c, rfl, _⟩ <;> simp [chunks]
    apply ReadChannelExpect_pending
    · intro c hc
      apply hquiet c
      rw [← hchunks]
      exact (List.Sublist.filterMap id hpre.sublist).subset hc
    · exact hasIdlePair_of_part _ _ (hpre.isInfix.trans hin) hidle

/-- Witness of C4: a read that stops at the chunk `"sw1>"` and leaves the next
chunk in the queue, and a read that stops at two consecutive empty polls. -/
theorem ReadChannelExpect_stops_at_match_or_idle_witness :
    ReadChannelExpect ⟨2, 0⟩ promptMarks
        (freshSession 0 [some (lit "login"), none, some (lit "sw1>"), some (lit "more")]) =
      some (lit "loginsw1>",
        { freshSession 0 [some (lit "more")] with slept := [2000000000] }) ∧
    lit "sw1>" <:+ lit "loginsw1>" ∧
    ReadChannelExpect ⟨2, 0⟩ promptMarks
        (freshSession 0 [some (lit "login"), none, none, some (lit "late>")]) =
      some (lit "login",
        { freshSession 0 [some (lit "late>")] with slept := [2000000000] }) :=
  ⟨(ReadChannelExpect_stops_at_match_or_idle ⟨2, 0⟩ promptMarks
      (freshSession 0 [some (lit "login"), none, some (lit "sw1>"), some (lit "more")])
      [some (lit "login"), none] [some (lit "sw1>")] [some (lit "more")] rfl
      (by decide) (by decide) (Or.inr ⟨lit "sw1>", rfl, by decide⟩)).1,
    by decide,
    (ReadChannelExpect_stops_at_match_or_idle ⟨2, 0⟩ promptMarks
      (freshSession 0 [some (lit "login"), none, none, some (lit "late>")])
      [some (lit "login")] [none, none] [some (lit "late>")] rfl
      (by decide) (by decide) (Or.inl rfl)).1⟩

/-- On a session whose channel `in` is closed, the send of `CheckSelf` panics:
the panic is recovered and logged, nothing is read, and the call returns `false`. -/
theorem CheckSelf_closed (s : SSHSession) (h : s.inClosed = true) :
    CheckSelf s =
      some (false, LogError s "SSHSession CheckSelf err:%s" "send on closed channel") := by
  unfold CheckSelf
  rw [WriteChannel_closed s newline [] h]
  rfl

/-- On a session whose channel `in` is open and whose writer goroutine has left
its loop, `CheckSelf` does not return: its send blocks forever. -/
theorem CheckSelf_blocked (s : SSHSession) (hopen : s.inClosed = false)
    (hwriter : s.writerAccepts = 0) : CheckSelf s = none := by
  obtain ⟨t, ht⟩ := WriteChannel_blocked [newline] s hopen (by simp [hwriter])
  unfold CheckSelf
  rw [ht]

/-- On an open session with no cached brand whose writer goroutine leaves its
loop before the three detection commands are received, `GetSSHBrand` does not
return: one of its sends blocks forever. -/
theorem GetSSHBrand_blocked (ToLower : GoString → GoString) (s : SSHSession)
    (hbrand : s.brand = []) (hopen : s.inClosed = false)
    (hwriter : s.writerAccepts < detectionCommands.length) :
    GetSSHBrand ToLower s = none := by
  obtain ⟨t, ht⟩ := WriteChannel_blocked detectionCommands s hopen hwriter
  unfold GetSSHBrand
  rw [if_neg (by simp [hbrand]), ht]

/-- C6: on a session with no cached brand, whose channel `in` is open, whose
writer goroutine receives the three detection commands, and whose idle read
captures the chunks of `before`, `GetSSHBrand` returns `"huawei"` when the
lower-cased captured text contains `"huawei"`, otherwise `"h3c"` when it
contains `"h3c"`, otherwise `"cisco"` when it contains `"cisco"`, otherwise
the empty string; and that value is the brand the session holds afterwards. -/
theorem GetSSHBrand_priority (ToLower : GoString → GoString) (s : SSHSession)
    (before rest : List Poll) (hbrand : s.brand = []) (hopen : s.inClosed = false)
    (hwriter : detectionCommands.length ≤ s.writerAccepts)
    (hout : s.out = before ++ none :: none :: rest)
    (hfirst : hasIdlePair (before ++ [none]) = false) :
    GetSSHBrand ToLower s =
      some (
        (if strings.Contains (ToLower (concatAll (chunks before))) HUAWEI = true then HUAWEI
         else if strings.Contains (ToLower (concatAll (chunks before))) H3C = true then H3C
         else if strings.Contains (ToLower (concatAll (chunks before))) CISCO = true then CISCO
         else []),
        { s with
          sent := s.sent ++ detectionCommands
          writerAccepts := s.writerAccepts - detectionCommands.length
          out := rest
          slept := s.slept ++ List.replicate (before.count none + 1) (sleepArgument ⟨1, 0⟩)
          brand :=
            (if strings.Contains (ToLower (concatAll (chunks before))) HUAWEI = true then HUAWEI
             else if strings.Contains (ToLower (concatAll (chunks before))) H3C = true then H3C
             else if strings.Contains (ToLower (concatAll (chunks before))) CISCO = true
               then CISCO
             else []) }) := by
  have hread := ReadChannelTiming_returns ⟨1, 0⟩
    { s with sent := s.sent ++ detectionCommands
             writerAccepts := s.writerAccepts - detectionCommands.length }
    before rest hout hfirst
  unfold GetSSHBrand
  rw [if_neg (by simp [hbrand]), WriteChannel_open detectionCommands s hopen hwriter]
  simp only [hread]
  split_ifs <;> simp [hbrand]

/-- Witness of C6: a text naming both H3C and Huawei is classified `"huawei"`. -/
theorem GetSSHBrand_priority_witness :
    (freshSession 3 [some (lit "H3C Comware; HUAWEI VRP"), none, none]).brand = [] ∧
    detectionCommands.length ≤
      (freshSession 3 [some (lit "H3C Comware; HUAWEI VRP"), none, none]).writerAccepts ∧
    GetSSHBrand asciiToLower
        (freshSession 3 [some (lit "H3C Comware; HUAWEI VRP"), none, none]) =
      some (lit "huawei",
        { freshSession 0 [] with
          sent := detectionCommands, slept := [1000000000], brand := lit "huawei" }) :=
  ⟨rfl, by decide,
    GetSSHBrand_priority asciiToLower
      (freshSession 3 [some (lit "H3C Comware; HUAWEI VRP"), none, none])
      [some (lit "H3C Comware; HUAWEI VRP")] [] rfl rfl (by decide) rfl (by decide)⟩

/-- C7: after `Close` on a session whose channels were open, a second `Close`
lets no panic leave the call: the error returned by the transport, if any, is
logged, the panic of closing the closed channel `in` is recovered and logged,
and the transport session and both channels are closed before and after. -/
theorem Close_twice_returns (s : SSHSession) (firstErr secondErr : Option String)
    (hin : s.inClosed = false) (hout : s.outClosed = false) :
    (Close firstErr s).2 = none ∧
    Close secondErr (Close firstErr s).1 =
      ({ (Close firstErr s).1 with
          log := (Close firstErr s).1.log ++
            secondErr.toList.map (fun err => { format := "Close session err:%s", arg := err }) ++
            [{ format := "SSHSession Close err:%s", arg := "close of closed channel" }] },
        none) ∧
    (Close firstErr s).1.sessionClosed = true ∧
    (Close firstErr s).1.inClosed = true ∧
    (Close firstErr s).1.outClosed = true := by
  cases firstErr <;> cases secondErr <;>
    simp [Close, closeBody, closeChannel, deferRecover, LogError, hin, hout]

/-- Witness of C7: a fresh session closed twice, the transport answering `EOF`
the second time. -/
theorem Close_twice_returns_witness :
    (Close none (freshSession 0 [])).2 = none ∧
    Close (some "EOF") (Close none (freshSession 0 [])).1 =
      ({ sessionClosed := true, inClosed := true, outClosed := true, sent := [],
         writerAccepts := 0, out := [], brand := [], slept := [],
         log := [{ format := "Close session err:%s", arg := "EOF" },
                 { format := "SSHSession Close err:%s", arg := "close of closed channel" }] },
        none) ∧
    (Close none (freshSession 0 [])).1.sessionClosed = true ∧
    (Close none (freshSession 0 [])).1.inClosed = true ∧
    (Close none (freshSession 0 [])).1.outClosed = true :=
  Close_twice_returns (freshSession 0 []) none (some "EOF") rfl rfl

/-! ## The idle wait -/

/-- C10 fails at `maxIntervalTime = 0.5`: half a second is 500000000
nanoseconds, and the argument both loops pass to `time.Sleep` is 0, because
`time.Duration(maxIntervalTime)` drops the fraction before the
multiplication by `time.Second`. -/
theorem sleepArgument_half_second :
    Float32.toRat ⟨1, -1⟩ * 1000000000 = 500000000 ∧
    sleepArgument ⟨1, -1⟩ = 0 ∧
    ReadChannelTiming ⟨1, -1⟩ (freshSession 0 [none, none]) =
      some ([], { freshSession 0 [] with slept := [0] }) ∧
    ReadChannelExpect ⟨1, -1⟩ promptMarks (freshSession 0 [none, none]) =
      some ([], { freshSession 0 [] with slept := [0] }) := by
  refine ⟨?_, by decide, by decide, by decide⟩
  norm_num [Float32.toRat]

end SwitchSSH
